import Mathlib

/-!
Verification development for the GroveDB repository (hierarchical
authenticated key-value store).  Rust sources are shallowly embedded as
executable Lean definitions:

* pure functions become Lean functions over `List (Fin 256)` byte strings;
* stateful code becomes explicit state passing over association lists;
* machine integers are `Nat` with explicit `% 2 ^ w` where overflow matters;
* fallible code returns `Except`/`Option`, or a `state >< Option error`
  pair when the Rust mutates in place and may fail midway;
* the string payloads of error variants are elided: only the error kind is
  ever inspected by specification or tests.

Cryptographic hashes are treated as perfect (collision-free) commitments:
where a Merk root hash is stored, the model either keeps the hash function
abstract (a parameter `mh`) or commits to the full authenticated contents.

Definitions that embed code of the repository that is not present under the
provided sources (`delete`, `find_subtrees`, batch module data types, the
root-leaf read of `get` on an empty path) are modelled from the
specification; each such definition carries a doc comment starting with
`Modelled from the spec:`.
-/

namespace GroveSpec

/-- A byte, the element of Rust `Vec<u8>` values. -/
abbrev Byte := Fin 256

/-- A path segment or key: Rust `Vec<u8>`. -/
abbrev Seg := List Byte

/-- A path: Rust `Vec<Vec<u8>>` or `&[&[u8]]`. -/
abbrev Path := List Seg

/-- Error kinds of GroveDB (`Error` enums of `lib.rs` and the later
modules merged; string payloads elided, only kinds are inspected). -/
inductive Err where
  | CyclicReference
  | ReferenceLimit
  | InvalidPath
  | CorruptedPath
  | InvalidQuery
  | MissingParameter
  | StorageError
  | CorruptedData
  | InvalidProof
  | InternalError
  | PathKeyNotFound
  | PathNotFound
  deriving DecidableEq, Repr

/-- GroveDB element values, from `subtree.rs`: `Item`, `Reference` and
`Tree`, each with an optional one-byte flag.  The `Tree` hash is kept as a
byte list; well-formed values have length 32 (`[u8; 32]`). -/
inductive Element where
  | Item : Seg → Option Byte → Element
  | Reference : Path → Option Byte → Element
  | Tree : Seg → Option Byte → Element
  deriving DecidableEq, Repr

/-- The path prefix helper of `lib.rs` (`GroveDb::compress_path`): folds the
path segments by concatenation and appends the optional key. -/
def compressPath (path : Path) (key : Option Seg) : Seg :=
  let res := path.foldl (fun acc p => acc ++ p) []
  match key with
  | some k => res ++ k
  | none => res

/-- The six-field resource vector of `costs/src/lib.rs`.  Fields are `u16`
(`seek_count`, `hash_node_calls`) and `u32` (the rest); values are carried
as `Nat`, with the width applied where the code performs machine
arithmetic. -/
structure OperationCost where
  seek_count : Nat
  storage_written_bytes : Nat
  storage_loaded_bytes : Nat
  loaded_bytes : Nat
  hash_byte_calls : Nat
  hash_node_calls : Nat
  deriving DecidableEq, Repr

/-- `impl Add for OperationCost`: componentwise `+` on the machine integer
fields.  Rust plain `+` wraps modulo the type width in release builds
(and panics in debug builds); the wrapping semantics is embedded. -/
def OperationCost.add (a b : OperationCost) : OperationCost where
  seek_count := (a.seek_count + b.seek_count) % 2 ^ 16
  storage_written_bytes := (a.storage_written_bytes + b.storage_written_bytes) % 2 ^ 32
  storage_loaded_bytes := (a.storage_loaded_bytes + b.storage_loaded_bytes) % 2 ^ 32
  loaded_bytes := (a.loaded_bytes + b.loaded_bytes) % 2 ^ 32
  hash_byte_calls := (a.hash_byte_calls + b.hash_byte_calls) % 2 ^ 32
  hash_node_calls := (a.hash_node_calls + b.hash_node_calls) % 2 ^ 16

/-- `impl AddAssign for OperationCost`: the `+=` implementation, translated
separately from `Add` (it is a distinct impl in the source). -/
def OperationCost.addAssign (a b : OperationCost) : OperationCost where
  seek_count := (a.seek_count + b.seek_count) % 2 ^ 16
  storage_written_bytes := (a.storage_written_bytes + b.storage_written_bytes) % 2 ^ 32
  storage_loaded_bytes := (a.storage_loaded_bytes + b.storage_loaded_bytes) % 2 ^ 32
  loaded_bytes := (a.loaded_bytes + b.loaded_bytes) % 2 ^ 32
  hash_byte_calls := (a.hash_byte_calls + b.hash_byte_calls) % 2 ^ 32
  hash_node_calls := (a.hash_node_calls + b.hash_node_calls) % 2 ^ 16

/-- Componentwise saturating addition, written after the specification
sentence "Addition is componentwise with saturating semantics at the
declared width"; used only to compare the spec against the code. -/
def OperationCost.specSaturatingAdd (a b : OperationCost) : OperationCost where
  seek_count := min (a.seek_count + b.seek_count) (2 ^ 16 - 1)
  storage_written_bytes := min (a.storage_written_bytes + b.storage_written_bytes) (2 ^ 32 - 1)
  storage_loaded_bytes := min (a.storage_loaded_bytes + b.storage_loaded_bytes) (2 ^ 32 - 1)
  loaded_bytes := min (a.loaded_bytes + b.loaded_bytes) (2 ^ 32 - 1)
  hash_byte_calls := min (a.hash_byte_calls + b.hash_byte_calls) (2 ^ 32 - 1)
  hash_node_calls := min (a.hash_node_calls + b.hash_node_calls) (2 ^ 16 - 1)

/-- All fields within their machine width (any value representable in the
Rust struct satisfies this). -/
def OperationCost.wf (a : OperationCost) : Prop :=
  a.seek_count < 2 ^ 16 ∧ a.storage_written_bytes < 2 ^ 32 ∧
    a.storage_loaded_bytes < 2 ^ 32 ∧ a.loaded_bytes < 2 ^ 32 ∧
    a.hash_byte_calls < 2 ^ 32 ∧ a.hash_node_calls < 2 ^ 16

instance (a : OperationCost) : Decidable a.wf := by
  unfold OperationCost.wf; infer_instance

/-!
Element serialization (`Element::serialize` / `Element::deserialize` in
`subtree.rs`): bincode with `DefaultOptions`, `with_varint_encoding` and
`reject_trailing_bytes`.  The encoding is: a varint variant tag (0 = Item,
1 = Reference, 2 = Tree); `Item` carries a varint length followed by the
bytes; `Reference` carries a varint segment count followed by
length-prefixed segments; `Tree` carries exactly 32 raw bytes; each variant
ends with the `Option<u8>` flag (byte 0 for `None`, byte 1 followed by the
value for `Some`).  Lengths are `u64` varints: a value below 251 is a
single byte, otherwise a marker byte 251/252/253 followed by the value as
2/4/8 little-endian bytes.
-/

/-- Little-endian encoding of `n` in exactly `w` bytes (low byte first). -/
def leEnc : Nat → Nat → List Byte
  | 0, _ => []
  | w + 1, n => ⟨n % 256, Nat.mod_lt _ (by omega)⟩ :: leEnc w (n / 256)

/-- Little-endian decoding of exactly `w` bytes from the front. -/
def leDec : Nat → List Byte → Option (Nat × List Byte)
  | 0, bs => some (0, bs)
  | _ + 1, [] => none
  | w + 1, b :: bs =>
    match leDec w bs with
    | some (n, rest) => some (b.val + 256 * n, rest)
    | none => none

/-- Bincode varint encoding of an unsigned value (`u64` range). -/
def varintEnc (n : Nat) : List Byte :=
  if h : n < 251 then [⟨n, by omega⟩]
  else if n < 2 ^ 16 then ⟨251, by omega⟩ :: leEnc 2 n
  else if n < 2 ^ 32 then ⟨252, by omega⟩ :: leEnc 4 n
  else ⟨253, by omega⟩ :: leEnc 8 n

/-- Bincode varint decoding from the front of a byte stream. -/
def varintDec : List Byte → Option (Nat × List Byte)
  | [] => none
  | b :: bs =>
    if b.val < 251 then some (b.val, bs)
    else if b.val = 251 then leDec 2 bs
    else if b.val = 252 then leDec 4 bs
    else if b.val = 253 then leDec 8 bs
    else none

/-- Take exactly `n` bytes from the front, failing on short input. -/
def takeExact : Nat → List Byte → Option (List Byte × List Byte)
  | 0, bs => some ([], bs)
  | _ + 1, [] => none
  | n + 1, b :: bs =>
    match takeExact n bs with
    | some (xs, rest) => some (b :: xs, rest)
    | none => none

/-- Length-prefixed byte string: varint length, then the raw bytes. -/
def encBytes (l : Seg) : List Byte := varintEnc l.length ++ l

/-- Decode a length-prefixed byte string from the front. -/
def decBytes (bs : List Byte) : Option (Seg × List Byte) :=
  match varintDec bs with
  | some (n, rest) => takeExact n rest
  | none => none

/-- Sequence of length-prefixed byte strings: varint count, then items. -/
def encSegs (segs : Path) : List Byte :=
  varintEnc segs.length ++ (segs.map encBytes).flatten

/-- Decode exactly `n` length-prefixed byte strings from the front. -/
def decSegsN : Nat → List Byte → Option (Path × List Byte)
  | 0, bs => some ([], bs)
  | n + 1, bs =>
    match decBytes bs with
    | some (s, rest) =>
      match decSegsN n rest with
      | some (ss, rest2) => some (s :: ss, rest2)
      | none => none
    | none => none

/-- `Option<u8>` flag encoding: byte 0 for `None`, 1 then value for `Some`. -/
def encFlag : Option Byte → List Byte
  | none => [0]
  | some f => [1, f]

/-- `Option<u8>` flag decoding from the front. -/
def decFlag : List Byte → Option (Option Byte × List Byte)
  | [] => none
  | b :: bs =>
    if b.val = 0 then some (none, bs)
    else if b.val = 1 then
      match bs with
      | [] => none
      | f :: bs2 => some (some f, bs2)
    else none

/-- `Element::serialize`: the bincode encoding of an element. -/
def Element.serialize : Element → List Byte
  | .Item data flag => 0 :: (encBytes data ++ encFlag flag)
  | .Reference segs flag => 1 :: (encSegs segs ++ encFlag flag)
  | .Tree h flag => 2 :: (h ++ encFlag flag)

/-- Decode one element from the front of a byte stream, returning the
unconsumed rest. -/
def Element.parse (bs : List Byte) : Option (Element × List Byte) :=
  match varintDec bs with
  | some (tag, rest) =>
    if tag = 0 then
      match decBytes rest with
      | some (data, rest2) =>
        match decFlag rest2 with
        | some (flag, rest3) => some (.Item data flag, rest3)
        | none => none
      | none => none
    else if tag = 1 then
      match varintDec rest with
      | some (n, rest2) =>
        match decSegsN n rest2 with
        | some (segs, rest3) =>
          match decFlag rest3 with
          | some (flag, rest4) => some (.Reference segs flag, rest4)
          | none => none
        | none => none
      | none => none
    else if tag = 2 then
      match takeExact 32 rest with
      | some (h, rest2) =>
        match decFlag rest2 with
        | some (flag, rest3) => some (.Tree h flag, rest3)
        | none => none
      | none => none
    else none
  | none => none

/-- `Element::deserialize`: decode a full byte string, rejecting trailing
bytes (`reject_trailing_bytes`). -/
def Element.deserialize (bs : List Byte) : Option Element :=
  match Element.parse bs with
  | some (e, []) => some e
  | _ => none

/-- Well-formed elements: every length is representable as a Rust `usize`
(`u64`) and a tree hash is exactly 32 bytes, as in the Rust types. -/
def Element.wf : Element → Prop
  | .Item data _ => data.length < 2 ^ 64
  | .Reference segs _ =>
    segs.length < 2 ^ 64 ∧ ∀ s ∈ segs, s.length < 2 ^ 64
  | .Tree h _ => h.length = 32

instance : (e : Element) → Decidable e.wf := fun e => by
  cases e <;> (unfold Element.wf; infer_instance)

theorem leDec_leEnc (w : Nat) (rest : List Byte) :
    ∀ n : Nat, n < 256 ^ w → leDec w (leEnc w n ++ rest) = some (n, rest) := by
  induction w with
  | zero => intro n hn; interval_cases n; simp [leEnc, leDec]
  | succ w ih =>
    intro n hn
    have h2 : n / 256 < 256 ^ w := by
      rw [Nat.div_lt_iff_lt_mul (by omega)]
      calc n < 256 ^ (w + 1) := hn
        _ = 256 ^ w * 256 := by ring
    simp only [leEnc, leDec, List.cons_append, List.append_eq,
      ih (n / 256) h2, Option.some.injEq, Prod.mk.injEq]
    exact ⟨by omega, trivial⟩

theorem varintDec_varintEnc (n : Nat) (rest : List Byte) (hn : n < 2 ^ 64) :
    varintDec (varintEnc n ++ rest) = some (n, rest) := by
  unfold varintEnc
  split_ifs with h1 h2 h3
  · simp [varintDec, h1]
  · have hd := leDec_leEnc 2 rest n (by norm_num; omega)
    rw [List.cons_append]
    show varintDec (⟨251, by omega⟩ :: (leEnc 2 n ++ rest)) = some (n, rest)
    simp only [varintDec]
    norm_num [hd]
  · have hd := leDec_leEnc 4 rest n (by norm_num; omega)
    rw [List.cons_append]
    show varintDec (⟨252, by omega⟩ :: (leEnc 4 n ++ rest)) = some (n, rest)
    simp only [varintDec]
    norm_num [hd]
  · have hd := leDec_leEnc 8 rest n (by norm_num; omega)
    rw [List.cons_append]
    show varintDec (⟨253, by omega⟩ :: (leEnc 8 n ++ rest)) = some (n, rest)
    simp only [varintDec]
    norm_num [hd]

theorem takeExact_append (l rest : List Byte) :
    takeExact l.length (l ++ rest) = some (l, rest) := by
  induction l with
  | nil => simp [takeExact]
  | cons b t ih => simp [takeExact, ih]

theorem decBytes_encBytes (l : Seg) (rest : List Byte) (h : l.length < 2 ^ 64) :
    decBytes (encBytes l ++ rest) = some (l, rest) := by
  unfold decBytes encBytes
  rw [List.append_assoc, varintDec_varintEnc _ _ h]
  exact takeExact_append l rest

theorem decFlag_encFlag (f : Option Byte) (rest : List Byte) :
    decFlag (encFlag f ++ rest) = some (f, rest) := by
  cases f <;> simp [encFlag, decFlag]

theorem decSegsN_encSegs (segs : Path) (rest : List Byte)
    (h : ∀ s ∈ segs, s.length < 2 ^ 64) :
    decSegsN segs.length ((segs.map encBytes).flatten ++ rest) = some (segs, rest) := by
  induction segs with
  | nil => simp [decSegsN]
  | cons s t ih =>
    have hs : s.length < 2 ^ 64 := h s (by simp)
    have ht : ∀ x ∈ t, x.length < 2 ^ 64 := fun x hx => h x (by simp [hx])
    simp only [List.map_cons, List.flatten_cons, List.length_cons, decSegsN,
      List.append_assoc, decBytes_encBytes s _ hs, ih ht]

theorem parse_serialize (e : Element) (rest : List Byte) (h : e.wf) :
    Element.parse (e.serialize ++ rest) = some (e, rest) := by
  cases e with
  | Item data flag =>
    have hl : data.length < 2 ^ 64 := h
    simp only [Element.serialize, Element.parse, List.cons_append, List.append_assoc]
    have htag : varintDec ((0 : Byte) :: (encBytes data ++ (encFlag flag ++ rest))) =
        some (0, encBytes data ++ (encFlag flag ++ rest)) := by
      simp [varintDec]
    rw [htag]
    norm_num [decBytes_encBytes data _ hl, decFlag_encFlag]
  | Reference segs flag =>
    obtain ⟨hl, hall⟩ := h
    simp only [Element.serialize, Element.parse, List.cons_append, encSegs,
      List.append_assoc]
    have htag : varintDec ((1 : Byte) ::
        (varintEnc segs.length ++ ((segs.map encBytes).flatten ++ (encFlag flag ++ rest)))) =
        some (1, varintEnc segs.length ++ ((segs.map encBytes).flatten ++ (encFlag flag ++ rest))) := by
      simp [varintDec]
    rw [htag]
    norm_num [varintDec_varintEnc _ _ hl, decSegsN_encSegs segs _ hall, decFlag_encFlag]
  | Tree hsh flag =>
    have hl : hsh.length = 32 := h
    simp only [Element.serialize, Element.parse, List.cons_append, List.append_assoc]
    have htag : varintDec ((2 : Byte) :: (hsh ++ (encFlag flag ++ rest))) =
        some (2, hsh ++ (encFlag flag ++ rest)) := by
      simp [varintDec]
    rw [htag]
    have ht : takeExact 32 (hsh ++ (encFlag flag ++ rest)) =
        some (hsh, encFlag flag ++ rest) := by
      rw [← hl]; exact takeExact_append _ _
    norm_num [ht, decFlag_encFlag]

/-- Fidelity check against `test_serialization` in `subtree.rs`: the empty
tree serializes to tag 2, 32 zero bytes and a zero flag byte (34 bytes). -/
example :
    Element.serialize (.Tree (List.replicate 32 0) none) =
      2 :: (List.replicate 32 0 ++ [0]) := by decide

/-- Fidelity check against `test_serialization`: `Item(0xabcdef)` encodes
as `0003abcdef00`. -/
example :
    Element.serialize (.Item [0xab, 0xcd, 0xef] none) =
      [0x00, 0x03, 0xab, 0xcd, 0xef, 0x00] := by decide

/-- Fidelity check against `test_serialization`: the reference to
`[[0x00], [0xab, 0xcd], [0x05]]` encodes as `0103010002abcd010500`. -/
example :
    Element.serialize (.Reference [[0x00], [0xab, 0xcd], [0x05]] none) =
      [0x01, 0x03, 0x01, 0x00, 0x02, 0xab, 0xcd, 0x01, 0x05, 0x00] := by decide

/-- Claim C9: element serialization round-trips — for every well-formed
element (any `Item`, `Reference` or `Tree` with any flag, with lengths
representable in the Rust types), `Element::deserialize ∘
Element::serialize` is the identity, and `deserialize` rejects the
encoding with any non-empty trailing byte string appended. -/
theorem element_serialize_roundtrip (e : Element) (extra : List Byte)
    (hwf : e.wf) (hx : extra ≠ []) :
    Element.deserialize e.serialize = some e ∧
      Element.deserialize (e.serialize ++ extra) = none := by
  constructor
  · have hp : Element.parse (e.serialize ++ []) = some (e, []) :=
      parse_serialize e [] hwf
    rw [List.append_nil] at hp
    unfold Element.deserialize
    rw [hp]
  · have hp : Element.parse (e.serialize ++ extra) = some (e, extra) :=
      parse_serialize e extra hwf
    unfold Element.deserialize
    rw [hp]
    cases extra with
    | nil => exact absurd rfl hx
    | cons b t => rfl

/-- Witness for C9 at a concrete element and trailing byte. -/
theorem element_serialize_roundtrip_witness :
    Element.wf (.Tree (List.replicate 32 0) (some 7)) ∧ ([(9 : Byte)] ≠ []) ∧
      (Element.deserialize (Element.serialize (.Tree (List.replicate 32 0) (some 7))) =
          some (.Tree (List.replicate 32 0) (some 7)) ∧
        Element.deserialize
            (Element.serialize (.Tree (List.replicate 32 0) (some 7)) ++ [(9 : Byte)]) =
          none) :=
  ⟨by decide, by decide,
    element_serialize_roundtrip (.Tree (List.replicate 32 0) (some 7)) [(9 : Byte)]
      (by decide) (by decide)⟩

/-!
In-memory model of the `GroveDb` struct of `lib.rs`: `subtrees` is a map
from compressed path to the subtree's contents (a Merk modelled by its
key-to-element association), `root_leaf_keys` maps top-level compressed
keys to leaf indices, and `root_tree` is the list of root leaf hashes.
The Merk root hash function is kept abstract as a parameter `mh`; its
value never influences control flow.
-/

/-- Association-list lookup (models `HashMap::get` / Merk point reads). -/
def assocGet {α β : Type} [DecidableEq α] : List (α × β) → α → Option β
  | [], _ => none
  | (k, v) :: t, a => if a = k then some v else assocGet t a

/-- Association-list insert-or-replace (models `HashMap::insert` and a
Merk `Put`). -/
def assocPut {α β : Type} [DecidableEq α] : List (α × β) → α → β → List (α × β)
  | [], a, b => [(a, b)]
  | (k, v) :: t, a, b => if a = k then (a, b) :: t else (k, v) :: assocPut t a b

/-- Association-list removal (models `HashMap::remove` and a Merk
`Delete`). -/
def assocErase {α β : Type} [DecidableEq α] : List (α × β) → α → List (α × β)
  | [], _ => []
  | (k, v) :: t, a => if a = k then t else (k, v) :: assocErase t a

/-- The contents of one Merk subtree: keys mapped to elements. -/
abbrev Merk := List (Seg × Element)

/-- `Element::get` of `subtree.rs`: a missing key is `PathKeyNotFound`;
storage and deserialization failures are not modelled. -/
def elementGet (m : Merk) (k : Seg) : Except Err Element :=
  match assocGet m k with
  | some e => .ok e
  | none => .error .PathKeyNotFound

/-- In-memory state of the `GroveDb` struct of `lib.rs` (the non-transaction
views; `root_tree` holds the root leaf hashes). -/
structure OldState where
  subtrees : List (Seg × Merk)
  rootLeafKeys : List (Seg × Nat)
  rootTree : List Seg
  deriving DecidableEq, Repr

/-- `MAX_REFERENCE_HOPS` of `lib.rs` and `operations/get.rs`. -/
def maxReferenceHops : Nat := 10

/-- `Vec::split_last` adapted to paths: the initial segment and the last
element. -/
def splitLastP {α : Type} (l : List α) : Option (List α × α) :=
  match l.reverse with
  | [] => none
  | x :: r => some (r.reverse, x)

/-- `GroveDb::build_root_tree`: the vector of root leaf hashes indexed by
`root_leaf_keys`.  The `expect("must be in sync")` panic on a missing
subtree is modelled by the zero hash; claims never inspect these values. -/
def buildRootTree (mh : Merk → Seg) (subtrees : List (Seg × Merk))
    (rlk : List (Seg × Nat)) : List Seg :=
  (List.range rlk.length).map fun i =>
    match rlk.find? (fun kv => kv.2 = i) with
    | some kv =>
      match assocGet subtrees kv.1 with
      | some m => mh m
      | none => List.replicate 32 0
    | none => List.replicate 32 0

/-- `GroveDb::get_raw` of `lib.rs` (and `operations/get.rs`): look the
subtree up by compressed path — `InvalidPath` when absent — then read the
element. -/
def oldGetRaw (st : OldState) (path : Path) (key : Seg) : Except Err Element :=
  match assocGet st.subtrees (compressPath path none) with
  | none => .error .InvalidPath
  | some m => elementGet m key

/-- `GroveDb::follow_reference`, generic over the raw read: a visited set
guards cycles, the hop budget decrements per followed reference, an empty
target path is `InvalidPath`, exhaustion is `ReferenceLimit`. -/
def followRefGen (getRaw : Path → Seg → Except Err Element) :
    Nat → List Path → Path → Except Err Element
  | 0, _, _ => .error .ReferenceLimit
  | hops + 1, visited, path =>
    if path ∈ visited then .error .CyclicReference
    else
      match splitLastP path with
      | none => .error .InvalidPath
      | some (slice, key) =>
        match getRaw slice key with
        | .error e => .error e
        | .ok (.Reference p _) => followRefGen getRaw hops (path :: visited) p
        | .ok other => .ok other

/-- `GroveDb::get`: raw read, following a reference result. -/
def oldGet (st : OldState) (path : Path) (key : Seg) : Except Err Element :=
  match oldGetRaw st path key with
  | .ok (.Reference p _) => followRefGen (oldGetRaw st) maxReferenceHops [] p
  | r => r

/-- `GroveDb::propagate_changes` on the reversed path: walk up from the
deepest segment, rewriting each parent's `Tree` element with the child's
root hash, and rebuild the root tree at the top. -/
def oldPropagateRev (mh : Merk → Seg) (st : OldState) :
    List Seg → OldState × Option Err
  | [] => (st, none)
  | key :: rslice =>
    if rslice = [] then
      ({ st with rootTree := buildRootTree mh st.subtrees st.rootLeafKeys }, none)
    else
      match assocGet st.subtrees (compressPath rslice.reverse (some key)) with
      | none => (st, some .InvalidPath)
      | some sub =>
        match assocGet st.subtrees (compressPath rslice.reverse none) with
        | none => (st, some .InvalidPath)
        | some upper =>
          oldPropagateRev mh
            { st with
              subtrees := assocPut st.subtrees (compressPath rslice.reverse none)
                (assocPut upper key (Element.Tree (mh sub) none)) } rslice

/-- `GroveDb::propagate_changes` of `lib.rs`. -/
def oldPropagate (mh : Merk → Seg) (st : OldState) (path : Path) :
    OldState × Option Err :=
  oldPropagateRev mh st path.reverse

/-- `GroveDb::insert` of `lib.rs`, returning the (possibly partially)
mutated state together with the error, mirroring the in-place mutation
order of the source. -/
def oldInsert (mh : Merk → Seg) (st : OldState) (path : Path) (key : Seg)
    (el : Element) : OldState × Option Err :=
  let compressed := compressPath path none
  match el with
  | .Tree _ flag =>
    if path = [] then
      let cps := compressPath path (some key)
      let newContents := (assocGet st.subtrees cps).getD []
      let subtrees1 := assocPut st.subtrees cps newContents
      let rlk1 :=
        if (assocGet st.rootLeafKeys cps).isNone then
          assocPut st.rootLeafKeys cps st.rootTree.length
        else st.rootLeafKeys
      oldPropagate mh { st with subtrees := subtrees1, rootLeafKeys := rlk1 } [key]
    else
      match assocGet st.subtrees compressed with
      | none => (st, some .InvalidPath)
      | some _ =>
        let cps := compressPath path (some key)
        let childContents := (assocGet st.subtrees cps).getD []
        let el2 := Element.Tree (mh childContents) flag
        let subtrees1 := assocPut st.subtrees cps childContents
        match assocGet subtrees1 compressed with
        | none => (st, some .InternalError)
        | some parentM =>
          let parentM1 := assocPut parentM key el2
          oldPropagate mh { st with subtrees := assocPut subtrees1 compressed parentM1 } path
  | _ =>
    if path = [] then (st, some .InvalidPath)
    else
      match assocGet st.subtrees compressed with
      | none => (st, some .InvalidPath)
      | some m =>
        let m1 := assocPut m key el
        oldPropagate mh { st with subtrees := assocPut st.subtrees compressed m1 } path

/-- Modelled from the spec: `GroveDb::delete` (`operations/delete.rs` is
not among the sources; only its tests and callers are).  Following the
spec: the entry at `(path, key)` is removed from its parent subtree; if it
held a `Tree`, "destruction cascades: every descendant subtree must be
cleared", the descendants being found "breadth-first using the on-disk
prefix scan" — every subtree whose backend prefix extends the deleted
subtree's prefix is removed; an empty path (root leaf deletion) is
rejected as `InvalidPath`; a missing key is rejected as `PathKeyNotFound`
(spec §9); root hashes are then propagated as after any change. -/
def oldDelete (mh : Merk → Seg) (st : OldState) (path : Path) (key : Seg) :
    OldState × Option Err :=
  if path = [] then (st, some .InvalidPath)
  else
    match assocGet st.subtrees (compressPath path none) with
    | none => (st, some .InvalidPath)
    | some parentM =>
      match assocGet parentM key with
      | none => (st, some .PathKeyNotFound)
      | some el =>
        oldPropagate mh
          { st with
            subtrees :=
              assocPut
                (match el with
                | .Tree _ _ =>
                  st.subtrees.filter
                    (fun kv => !((compressPath path (some key)).isPrefixOf kv.1))
                | _ => st.subtrees)
                (compressPath path none) (assocErase parentM key) } path

instance {ε α : Type} [DecidableEq ε] [DecidableEq α] : DecidableEq (Except ε α) :=
  fun a b =>
    match a, b with
    | .ok x, .ok y =>
      if h : x = y then isTrue (by rw [h]) else
        isFalse (by intro hh; cases hh; exact h rfl)
    | .error x, .error y =>
      if h : x = y then isTrue (by rw [h]) else
        isFalse (by intro hh; cases hh; exact h rfl)
    | .ok _, .error _ => isFalse (by intro hh; cases hh)
    | .error _, .ok _ => isFalse (by intro hh; cases hh)

/-- Tree-element recognizer. -/
def isTreeE : Element → Bool
  | .Tree _ _ => true
  | _ => false

/-- The zero hash used to instantiate the abstract Merk root hash in
concrete witnesses. -/
def mhZero : Merk → Seg := fun _ => List.replicate 32 0

theorem compress_none_eq_flatten (p : Path) : compressPath p none = p.flatten := by
  unfold compressPath
  suffices h : ∀ acc : Seg, List.foldl (fun acc x => acc ++ x) acc p = acc ++ p.flatten by
    simpa using h []
  induction p with
  | nil => intro acc; simp
  | cons s t ih => intro acc; simp [List.foldl_cons, ih, List.append_assoc]

theorem compress_some_eq (p : Path) (k : Seg) :
    compressPath p (some k) = p.flatten ++ k := by
  have h := compress_none_eq_flatten p
  unfold compressPath at h ⊢
  simp only at h ⊢
  rw [h]

theorem assocGet_filter_pfx (pfx : Seg) (m : List (Seg × Merk)) (c : Seg)
    (hc : pfx.isPrefixOf c = true) :
    assocGet (m.filter (fun kv => !(pfx.isPrefixOf kv.1))) c = none := by
  induction m with
  | nil => rfl
  | cons kv t ih =>
    obtain ⟨k, v⟩ := kv
    by_cases hk : pfx.isPrefixOf k = true
    · simp only [List.filter_cons, hk, Bool.not_true]
      rw [if_neg (by simp)]
      exact ih
    · have hkf : pfx.isPrefixOf k = false := by
        cases hx : pfx.isPrefixOf k
        · rfl
        · exact absurd hx hk
      have hne : c ≠ k := by
        intro h
        rw [h] at hc
        rw [hc] at hkf
        cases hkf
      simp only [List.filter_cons, hkf, Bool.not_false, if_true]
      simp only [assocGet, if_neg hne]
      exact ih

theorem assocGet_put_ne {α β : Type} [DecidableEq α] (m : List (α × β))
    (a c : α) (b : β) (h : c ≠ a) :
    assocGet (assocPut m a b) c = assocGet m c := by
  induction m with
  | nil => simp [assocPut, assocGet, h]
  | cons kv t ih =>
    obtain ⟨k, v⟩ := kv
    by_cases hak : a = k
    · subst hak
      simp [assocPut, assocGet, h]
    · simp only [assocPut, if_neg hak, assocGet]
      by_cases hck : c = k
      · simp [hck]
      · simp [hck, ih]

theorem propagateRev_preserves_none (mh : Merk → Seg) (rp : List Seg) :
    ∀ (st : OldState) (c : Seg), assocGet st.subtrees c = none →
      assocGet (oldPropagateRev mh st rp).1.subtrees c = none := by
  induction rp with
  | nil => intro st c h; exact h
  | cons key rslice ih =>
    intro st c h
    unfold oldPropagateRev
    by_cases hr : rslice = []
    · rw [if_pos hr]
      exact h
    · rw [if_neg hr]
      cases hsub : assocGet st.subtrees (compressPath rslice.reverse (some key)) with
      | none => exact h
      | some sub =>
        cases hup : assocGet st.subtrees (compressPath rslice.reverse none) with
        | none => exact h
        | some upper =>
          apply ih
          have hne : c ≠ compressPath rslice.reverse none := by
            intro he
            rw [he] at h
            rw [h] at hup
            cases hup
          show assocGet (assocPut st.subtrees (compressPath rslice.reverse none)
            (assocPut upper key (Element.Tree (mh sub) none))) c = none
          rw [assocGet_put_ne _ _ _ _ hne]
          exact h

/-- Claim C1 (evaluation at the failing input): `compress_path` of `lib.rs`
maps the distinct paths `["aa", "b"]` and `["a", "ab"]` to the same prefix
`"aab"`, contradicting the required injectivity (asserted by the spec and
by the repository's own collision test). -/
theorem compress_path_collision :
    compressPath [[97, 97], [98]] none = compressPath [[97], [97, 98]] none ∧
      ([[97, 97], [98]] : Path) ≠ [[97], [97, 98]] := by
  decide

/-- Claim C10: inserting any non-`Tree` element at the empty path fails
with `InvalidPath` ("only subtrees are allowed as root tree's leafs") and
returns the state unchanged — subtrees, root-leaves map and root tree
untouched. -/
theorem insert_root_non_tree (mh : Merk → Seg) (st : OldState) (key : Seg)
    (e : Element) (he : isTreeE e = false) :
    oldInsert mh st [] key e = (st, some .InvalidPath) := by
  cases e with
  | Tree h f => simp [isTreeE] at he
  | Item d f => rfl
  | Reference p f => rfl

/-- Claim C4 (amended): after a successful `delete(p, k)` where the entry
at `(p, k)` held a `Tree` element (with a non-empty key, as any real key
is), every subsequent `get` at any path extending `[p..., k]` — any key,
any deeper descendant path — fails, and the error kind is `InvalidPath`
("no subtree found under that path"), the kind the repository's own
`test_subtree_deletion` asserts; the source error type in `lib.rs` raises
`InvalidPath`, not `PathNotFound` or `PathKeyNotFound`, on a missing
subtree. -/
theorem delete_tree_cascade (mh : Merk → Seg) (st st' : OldState)
    (path : Path) (key : Seg) (hsh : Seg) (f : Option Byte) (hkey : key ≠ [])
    (hheld : oldGetRaw st path key = .ok (.Tree hsh f))
    (hdel : oldDelete mh st path key = (st', none))
    (ext : Path) (k2 : Seg) :
    oldGet st' (path ++ key :: ext) k2 = .error .InvalidPath := by
  have hp : path ≠ [] := by
    intro he
    rw [he] at hdel
    unfold oldDelete at hdel
    rw [if_pos rfl] at hdel
    cases hdel
  have htgt : compressPath (path ++ key :: ext) none =
      path.flatten ++ (key ++ ext.flatten) := by
    rw [compress_none_eq_flatten]
    simp [List.flatten_append]
  have hpfx : (compressPath path (some key)).isPrefixOf
      (compressPath (path ++ key :: ext) none) = true := by
    rw [htgt, compress_some_eq]
    rw [List.isPrefixOf_iff_prefix]
    exact ⟨ext.flatten, by simp⟩
  have hne : compressPath (path ++ key :: ext) none ≠ compressPath path none := by
    intro he
    have hlen := congrArg List.length he
    rw [htgt, compress_none_eq_flatten] at hlen
    simp only [List.length_append] at hlen
    have hk0 : key.length ≠ 0 := by
      intro h0
      exact hkey (List.length_eq_zero.mp h0)
    omega
  cases hparent : assocGet st.subtrees (compressPath path none) with
  | none =>
    unfold oldGetRaw at hheld
    simp [hparent] at hheld
  | some parentM =>
    cases hek : assocGet parentM key with
    | none =>
      unfold oldGetRaw elementGet at hheld
      simp [hparent, hek] at hheld
    | some el =>
      have hel : el = .Tree hsh f := by
        unfold oldGetRaw elementGet at hheld
        simp [hparent, hek] at hheld
        exact hheld
      subst hel
      have hnone : assocGet (oldDelete mh st path key).1.subtrees
          (compressPath (path ++ key :: ext) none) = none := by
        unfold oldDelete
        rw [if_neg hp]
        simp only [hparent, hek]
        unfold oldPropagate
        apply propagateRev_preserves_none
        show assocGet
          (assocPut
            (st.subtrees.filter
              (fun kv => !((compressPath path (some key)).isPrefixOf kv.1)))
            (compressPath path none) (assocErase parentM key))
          (compressPath (path ++ key :: ext) none) = none
        rw [assocGet_put_ne _ _ _ _ hne]
        exact assocGet_filter_pfx _ _ _ hpfx
      have hfst : (oldDelete mh st path key).1 = st' := by rw [hdel]
      rw [hfst] at hnone
      unfold oldGet oldGetRaw
      rw [hnone]

/-- Counterexample for C4 as stated: in a concrete store, deleting the
`Tree` at `(["t"], "k")` succeeds, and a subsequent `get` under the deleted
subtree fails with kind `InvalidPath` — not `PathNotFound` or
`PathKeyNotFound` as the claim requires. -/
theorem delete_tree_cascade_counterexample :
    oldGetRaw
        (OldState.mk
          [([116], [([107], .Tree (List.replicate 32 0) none)]),
            ([116, 107], [([106], .Item [1] none)])]
          [([116], 0)] [])
        [[116]] [107] = .ok (.Tree (List.replicate 32 0) none) ∧
      (oldDelete mhZero
          (OldState.mk
            [([116], [([107], .Tree (List.replicate 32 0) none)]),
              ([116, 107], [([106], .Item [1] none)])]
            [([116], 0)] [])
          [[116]] [107]).2 = none ∧
      oldGet
          (oldDelete mhZero
            (OldState.mk
              [([116], [([107], .Tree (List.replicate 32 0) none)]),
                ([116, 107], [([106], .Item [1] none)])]
              [([116], 0)] [])
            [[116]] [107]).1
          [[116], [107]] [106] = .error .InvalidPath ∧
      (Err.InvalidPath ≠ Err.PathNotFound ∧ Err.InvalidPath ≠ Err.PathKeyNotFound) := by
  decide

/-- Witness for the amended C4 at a concrete store. -/
theorem delete_tree_cascade_witness :
    oldGet
        (oldDelete mhZero
          (OldState.mk
            [([117], [([108], .Tree (List.replicate 32 0) none)]),
              ([117, 108], [([106], .Item [1] none)])]
            [([117], 0)] [])
          [[117]] [108]).1
        [[117], [108]] [99] = .error .InvalidPath := by
  have h := delete_tree_cascade mhZero
    (OldState.mk
      [([117], [([108], .Tree (List.replicate 32 0) none)]),
        ([117, 108], [([106], .Item [1] none)])]
      [([117], 0)] [])
    (oldDelete mhZero
      (OldState.mk
        [([117], [([108], .Tree (List.replicate 32 0) none)]),
          ([117, 108], [([106], .Item [1] none)])]
        [([117], 0)] [])
      [[117]] [108]).1
    [[117]] [108] (List.replicate 32 0) none (by decide) (by decide) (by decide) [] [99]
  simpa using h

/-- Witness for C10 at a concrete state and element. -/
theorem insert_root_non_tree_witness :
    isTreeE (.Item [2] none) = false ∧
      oldInsert mhZero (OldState.mk [] [] []) [] [1] (.Item [2] none) =
        (OldState.mk [] [] [], some .InvalidPath) :=
  ⟨by decide, insert_root_non_tree mhZero (OldState.mk [] [] []) [1] (.Item [2] none)
    (by decide)⟩

/-- Non-reference recognizer. -/
def notRefB : Element → Bool
  | .Reference _ _ => false
  | _ => true

/-- The raw read at a full path (its initial segment as path, its last
segment as key), exactly as `follow_reference` splits each hop. -/
def getRawAt (st : OldState) (q : Path) : Except Err Element :=
  match splitLastP q with
  | some (slice, key) => oldGetRaw st slice key
  | none => .error .InvalidPath

/-- The raw read result is a reference pointing at `q`. -/
def refTargets : Except Err Element → Path → Prop
  | .ok (.Reference p _), q => p = q
  | _, _ => False

instance : (r : Except Err Element) → (q : Path) → Decidable (refTargets r q) :=
  fun r q =>
    match r with
    | .error _ => isFalse (fun h => h)
    | .ok (.Item _ _) => isFalse (fun h => h)
    | .ok (.Tree _ _) => isFalse (fun h => h)
    | .ok (.Reference p _) => (inferInstance : Decidable (p = q))

/-- A reference chain in the store: each listed full path holds a
`Reference` to the next, the last holds the non-reference element `e`. -/
def IsRefChain (st : OldState) : List Path → Element → Prop
  | [], _ => False
  | [q], e => q ≠ [] ∧ getRawAt st q = .ok e ∧ notRefB e = true
  | q :: q2 :: t, e => q ≠ [] ∧ refTargets (getRawAt st q) q2 ∧ IsRefChain st (q2 :: t) e

instance isRefChainDec (st : OldState) :
    (c : List Path) → (e : Element) → Decidable (IsRefChain st c e)
  | [], _ => isFalse (fun h => h)
  | [q], e =>
    (inferInstance :
      Decidable (q ≠ [] ∧ getRawAt st q = .ok e ∧ notRefB e = true))
  | q :: q2 :: t, e =>
    haveI : Decidable (IsRefChain st (q2 :: t) e) := isRefChainDec st (q2 :: t) e
    (inferInstance :
      Decidable (q ≠ [] ∧ refTargets (getRawAt st q) q2 ∧ IsRefChain st (q2 :: t) e))

theorem splitLastP_of_ne_nil {α : Type} (q : List α) (h : q ≠ []) :
    ∃ s k, splitLastP q = some (s, k) := by
  cases hq : q.reverse with
  | nil => exact absurd (List.reverse_eq_nil_iff.mp hq) h
  | cons x r => exact ⟨r.reverse, x, by unfold splitLastP; rw [hq]⟩

theorem followRefGen_step (g : Path → Seg → Except Err Element)
    (hops : Nat) (visited : List Path) (path : Path) (slice : List Seg)
    (key : Seg) (hnv : path ∉ visited) (hsp : splitLastP path = some (slice, key)) :
    followRefGen g (hops + 1) visited path =
      match g slice key with
      | .error e => .error e
      | .ok (.Reference p _) => followRefGen g hops (path :: visited) p
      | .ok other => .ok other := by
  conv_lhs => rw [followRefGen]
  rw [if_neg hnv, hsp]

theorem followRef_chain (st : OldState) (chain : List Path) :
    ∀ (q : Path) (e : Element) (hops : Nat) (visited : List Path),
      IsRefChain st (q :: chain) e → (q :: chain).Nodup →
      (∀ x ∈ q :: chain, x ∉ visited) →
      followRefGen (oldGetRaw st) hops visited q =
        if (q :: chain).length ≤ hops then .ok e else .error .ReferenceLimit := by
  induction chain with
  | nil =>
    intro q e hops visited hc hnd hv
    obtain ⟨hq, hget, hnr⟩ := hc
    cases hops with
    | zero => simp [followRefGen]
    | succ hops =>
      have hqv : q ∉ visited := hv q (by simp)
      obtain ⟨slice, key, hsp⟩ := splitLastP_of_ne_nil q hq
      have hget2 : oldGetRaw st slice key = .ok e := by
        unfold getRawAt at hget
        rw [hsp] at hget
        exact hget
      rw [followRefGen_step _ hops visited q slice key hqv hsp, hget2]
      cases e with
      | Reference p f => simp [notRefB] at hnr
      | Item d f => simp
      | Tree h f => simp
  | cons q2 t ih =>
    intro q e hops visited hc hnd hv
    obtain ⟨hq, hrt, hrest⟩ := hc
    cases hops with
    | zero => simp [followRefGen]
    | succ hops =>
      have hqv : q ∉ visited := hv q (by simp)
      obtain ⟨slice, key, hsp⟩ := splitLastP_of_ne_nil q hq
      cases hget : getRawAt st q with
      | error e0 => rw [hget] at hrt; exact hrt.elim
      | ok el =>
        cases el with
        | Item d f => rw [hget] at hrt; exact hrt.elim
        | Tree h f => rw [hget] at hrt; exact hrt.elim
        | Reference p f =>
          rw [hget] at hrt
          have hp : q2 = p := hrt.symm
          subst hp
          have hget2 : oldGetRaw st slice key = .ok (.Reference q2 f) := by
            unfold getRawAt at hget
            rw [hsp] at hget
            exact hget
          rw [followRefGen_step _ hops visited q slice key hqv hsp, hget2]
          have hnd2 : (q2 :: t).Nodup := hnd.of_cons
          have hqmem : q ∉ q2 :: t := (List.nodup_cons.mp hnd).1
          have hv2 : ∀ x ∈ q2 :: t, x ∉ q :: visited := by
            intro x hx
            simp only [List.mem_cons, not_or]
            constructor
            · intro he
              rw [he] at hx
              exact hqmem hx
            · exact hv x (by simp [hx])
          show followRefGen (oldGetRaw st) hops (q :: visited) q2 = _
          rw [ih q2 e hops (q :: visited) hrest hnd2 hv2]
          by_cases hl : (q2 :: t).length ≤ hops
          · rw [if_pos hl, if_pos (by simp only [List.length_cons] at hl ⊢; omega)]
          · rw [if_neg hl, if_neg (by simp only [List.length_cons] at hl ⊢; omega)]

/-- Claim C5: `get` resolves reference chains following at most
`MAX_REF_HOPS = 10` hops — when the raw read yields a reference heading a
chain of `n` hops ending at a non-reference element, `get` returns that
element if `n ≤ 10` and fails with `ReferenceLimit` otherwise (for
example, a chain of 11 references ending at an `Item`). -/
theorem get_resolves_reference_chains (st : OldState) (path : Path) (key : Seg)
    (q : Path) (f : Option Byte) (chain : List Path) (e : Element)
    (h0 : oldGetRaw st path key = .ok (.Reference q f))
    (hc : IsRefChain st (q :: chain) e)
    (hnd : (q :: chain).Nodup) :
    oldGet st path key =
      if (q :: chain).length ≤ maxReferenceHops then .ok e
      else .error .ReferenceLimit := by
  unfold oldGet
  rw [h0]
  exact followRef_chain st chain q e maxReferenceHops [] hc hnd (by simp)

/-- The concrete reference chain store of spec scenario 2: `TEST_LEAF`
modelled as key `[116]`, with `key0 = Item("o")` and
`keyN = Reference([TEST_LEAF, keyN-1])` for `N = 1..11`. -/
def c5Store : OldState :=
  OldState.mk
    [([116],
      [([0], .Item [111] none),
        ([1], .Reference [[116], [0]] none),
        ([2], .Reference [[116], [1]] none),
        ([3], .Reference [[116], [2]] none),
        ([4], .Reference [[116], [3]] none),
        ([5], .Reference [[116], [4]] none),
        ([6], .Reference [[116], [5]] none),
        ([7], .Reference [[116], [6]] none),
        ([8], .Reference [[116], [7]] none),
        ([9], .Reference [[116], [8]] none),
        ([10], .Reference [[116], [9]] none),
        ([11], .Reference [[116], [10]] none)])]
    [([116], 0)] []

/-- The tail of the 11-hop chain read by `get` at `key11`. -/
def c5Tail : List Path :=
  [[[116], [9]], [[116], [8]], [[116], [7]], [[116], [6]], [[116], [5]],
    [[116], [4]], [[116], [3]], [[116], [2]], [[116], [1]], [[116], [0]]]

/-- Witness for C5: in the concrete chain store, `get` at `key11` (an
11-hop chain ending at an `Item`) fails with `ReferenceLimit`. -/
theorem get_resolves_reference_chains_witness :
    oldGetRaw c5Store [[116]] [11] = .ok (.Reference [[116], [10]] none) ∧
      IsRefChain c5Store ([[116], [10]] :: c5Tail) (.Item [111] none) ∧
      oldGet c5Store [[116]] [11] = .error .ReferenceLimit := by
  refine ⟨by decide, by decide, ?_⟩
  have h := get_resolves_reference_chains c5Store [[116]] [11] [[116], [10]] none
    c5Tail (.Item [111] none) (by decide) (by decide) (by decide)
  rw [if_neg (by decide)] at h
  exact h

/-- Counterexample for C7 as stated: at `seek_count = u16::MAX` plus 1 —
both operands representable in the Rust struct — the `Add` implementation
wraps to 0 instead of saturating at 65535, so addition is not saturating. -/
theorem operation_cost_add_not_saturating :
    OperationCost.wf (OperationCost.mk 65535 0 0 0 0 0) ∧
      OperationCost.wf (OperationCost.mk 1 0 0 0 0 0) ∧
      (OperationCost.add (OperationCost.mk 65535 0 0 0 0 0)
          (OperationCost.mk 1 0 0 0 0 0)).seek_count = 0 ∧
      OperationCost.add (OperationCost.mk 65535 0 0 0 0 0)
          (OperationCost.mk 1 0 0 0 0 0) ≠
        OperationCost.specSaturatingAdd (OperationCost.mk 65535 0 0 0 0 0)
          (OperationCost.mk 1 0 0 0 0 0) := by
  decide

/-- Claim C7 (amended): addition of `OperationCost` values via `Add` and
`AddAssign` is componentwise and the two implementations agree; each field
is added with plain machine addition at its declared width (`u16` for
`seek_count` and `hash_node_calls`, `u32` for the others), which wraps
modulo the width on overflow (panicking in debug builds) rather than
saturating. -/
theorem operation_cost_add_componentwise (a b : OperationCost) :
    OperationCost.add a b = OperationCost.addAssign a b ∧
      (OperationCost.add a b).seek_count = (a.seek_count + b.seek_count) % 2 ^ 16 ∧
      (OperationCost.add a b).storage_written_bytes =
        (a.storage_written_bytes + b.storage_written_bytes) % 2 ^ 32 ∧
      (OperationCost.add a b).storage_loaded_bytes =
        (a.storage_loaded_bytes + b.storage_loaded_bytes) % 2 ^ 32 ∧
      (OperationCost.add a b).loaded_bytes = (a.loaded_bytes + b.loaded_bytes) % 2 ^ 32 ∧
      (OperationCost.add a b).hash_byte_calls =
        (a.hash_byte_calls + b.hash_byte_calls) % 2 ^ 32 ∧
      (OperationCost.add a b).hash_node_calls =
        (a.hash_node_calls + b.hash_node_calls) % 2 ^ 16 :=
  ⟨rfl, rfl, rfl, rfl, rfl, rfl, rfl⟩

/-!
Chunked replication proofs (`merk/src/proofs/chunk.rs`).  A Merk tree node
carries key, value, kv hash and node hash; an absent child link is the
`nil` tree.  `create_trunk_proof` first walks the leftmost spine to
determine the trunk height (`traverse_for_height_proof`), then either
emits the entire tree as `KV` pushes (trunk height below
`MIN_TRUNK_HEIGHT`, has-more flag `false`) or an abridged trunk prefixed
by the height proof (flag `true`).
-/

/-- A Merk tree: `node` fields are `(key, value, kv_hash, node_hash)` and
the two child links; `nil` is an absent link. -/
inductive MTree where
  | nil
  | node (key value kvHash nodeHash : Seg) (left right : MTree)
  deriving DecidableEq, Repr

/-- Proof stream node payloads (`Node` in `proofs`): an abridged hash, a
kv hash, or a full key-value pair. -/
inductive PNode where
  | Hash : Seg → PNode
  | KVHash : Seg → PNode
  | KV : Seg → Seg → PNode
  deriving DecidableEq, Repr

/-- Proof stream operations (`Op`): push a node, or combine with
parent/child. -/
inductive POp where
  | push : PNode → POp
  | parent
  | child
  deriving DecidableEq, Repr

/-- `MIN_TRUNK_HEIGHT` of `chunk.rs`. -/
def minTrunkHeight : Nat := 5

/-- `usize::MAX`, the unabridged depth bound passed by
`create_trunk_proof` when the whole tree is one chunk. -/
def usizeMax : Nat := 2 ^ 64 - 1

/-- Height of a Merk tree (a leaf has height 1, as in merk links). -/
def MTree.height : MTree → Nat
  | .nil => 0
  | .node _ _ _ _ l r => 1 + max l.height r.height

/-- The trunk height as computed by `traverse_for_height_proof`: descend
the leftmost spine incrementing the depth, and return half the depth of
the spine's bottom node. -/
def trunkHeightAux : MTree → Nat → Nat
  | .nil, depth => depth / 2
  | .node _ _ _ _ .nil _, depth => depth / 2
  | .node _ _ _ _ (.node k v kh nh l r) _, depth =>
    trunkHeightAux (.node k v kh nh l r) (depth + 1)

/-- The ops pushed by `traverse_for_height_proof` once the trunk height
`th` is known: on unwinding, each spine node deeper than `th` pushes its
`KVHash`, a `Parent` when it has a left child, and its right link's
`Hash` with a `Child`. -/
def heightProofOps (th : Nat) : MTree → Nat → List POp
  | .nil, _ => []
  | .node _ _ kh _ l r, depth =>
    (match l with
     | .nil => []
     | .node lk lv lkh lnh ll lr => heightProofOps th (.node lk lv lkh lnh ll lr) (depth + 1)) ++
    (if th < depth then
      [.push (.KVHash kh)] ++
        (if l ≠ .nil then [.parent] else []) ++
        (match r with
         | .nil => []
         | .node _ _ _ rnh _ _ => [.push (.Hash rnh), .child])
     else [])

/-- `traverse_for_trunk`: emit `KV` pushes down to the remaining depth;
at depth zero a non-leftmost node is abridged to its `Hash` push (the
leftmost one is already covered by the height proof). -/
def trunkOps : MTree → Nat → Bool → List POp
  | .nil, _, _ => []
  | .node k v _ nh l r, d, leftmost =>
    if d = 0 then (if leftmost then [] else [.push (.Hash nh)])
    else
      (match l with
       | .nil => []
       | .node lk lv lkh lnh ll lr => trunkOps (.node lk lv lkh lnh ll lr) (d - 1) leftmost) ++
      [.push (.KV k v)] ++
      (if l ≠ .nil then [.parent] else []) ++
      (match r with
       | .nil => []
       | .node rk rv rkh rnh rl rr =>
         trunkOps (.node rk rv rkh rnh rl rr) (d - 1) false ++ [.child])

/-- The full-tree emission: every node as a `KV` push with its structure
ops (what `traverse_for_trunk` produces when the depth bound exceeds the
tree height). -/
def fullOps : MTree → List POp
  | .nil => []
  | .node k v _ _ l r =>
    fullOps l ++ [.push (.KV k v)] ++
      (if l ≠ .nil then [.parent] else []) ++
      (match r with
       | .nil => []
       | .node rk rv rkh rnh rl rr => fullOps (.node rk rv rkh rnh rl rr) ++ [.child])

/-- `create_trunk_proof`: trunk height below `MIN_TRUNK_HEIGHT` emits the
whole tree with has-more `false`; otherwise the height proof followed by
the abridged trunk with has-more `true`. -/
def createTrunkProof (t : MTree) : List POp × Bool :=
  if trunkHeightAux t 1 < minTrunkHeight then
    (trunkOps t usizeMax true, false)
  else
    (heightProofOps (trunkHeightAux t 1) t 1 ++ trunkOps t (trunkHeightAux t 1) true, true)

/-- In-order key-value pairs of a Merk tree. -/
def inorderKV : MTree → List (Seg × Seg)
  | .nil => []
  | .node k v _ _ l r => inorderKV l ++ [(k, v)] ++ inorderKV r

/-- The key-value pairs pushed by a proof stream. -/
def opsKVs (ops : List POp) : List (Seg × Seg) :=
  ops.filterMap fun op =>
    match op with
    | .push (.KV k v) => some (k, v)
    | _ => none

/-- Every push in the stream is a full `KV` push (no abridged node). -/
def allPushKV (ops : List POp) : Bool :=
  ops.all fun op =>
    match op with
    | .push (.Hash _) => false
    | .push (.KVHash _) => false
    | _ => true

theorem trunkOps_full (t : MTree) :
    ∀ (d : Nat) (lm : Bool), t.height ≤ d → trunkOps t d lm = fullOps t := by
  induction t with
  | nil => intro d lm _; cases d <;> rfl
  | node k v kh nh l r ihl ihr =>
    intro d lm hd
    have hd0 : d ≠ 0 := by
      unfold MTree.height at hd
      omega
    have hl : l.height ≤ d - 1 := by
      unfold MTree.height at hd
      omega
    have hr : r.height ≤ d - 1 := by
      unfold MTree.height at hd
      omega
    cases l with
    | nil =>
      cases r with
      | nil =>
        simp only [trunkOps, fullOps, if_neg hd0]
      | node rk rv rkh rnh rl rr =>
        simp only [trunkOps, fullOps, if_neg hd0]
        rw [ihr (d - 1) false hr]
    | node lk lv lkh lnh ll lr =>
      cases r with
      | nil =>
        simp only [trunkOps, fullOps, if_neg hd0]
        rw [ihl (d - 1) lm hl]
      | node rk rv rkh rnh rl rr =>
        simp only [trunkOps, fullOps, if_neg hd0]
        rw [ihl (d - 1) lm hl, ihr (d - 1) false hr]

theorem opsKVs_fullOps (t : MTree) : opsKVs (fullOps t) = inorderKV t := by
  induction t with
  | nil => rfl
  | node k v kh nh l r ihl ihr =>
    cases r with
    | nil =>
      simp only [fullOps, inorderKV, opsKVs] at ihl ⊢
      simp [List.filterMap_append, List.filterMap_cons, ihl]
    | node rk rv rkh rnh rl rr =>
      simp only [fullOps, inorderKV, opsKVs] at ihl ihr ⊢
      simp [List.filterMap_append, List.filterMap_cons, ihl, ihr]

theorem allPushKV_fullOps (t : MTree) : allPushKV (fullOps t) = true := by
  induction t with
  | nil => rfl
  | node k v kh nh l r ihl ihr =>
    cases r with
    | nil =>
      simp only [fullOps, allPushKV] at ihl ⊢
      simp [List.all_append, ihl]
    | node rk rv rkh rnh rl rr =>
      simp only [fullOps, allPushKV] at ihl ihr ⊢
      simp [List.all_append, ihl, ihr]

theorem heightProofOps_has_kvhash (t : MTree) :
    ∀ depth : Nat, 1 ≤ depth → t ≠ .nil →
      ∃ kh, POp.push (.KVHash kh) ∈ heightProofOps (trunkHeightAux t depth) t depth := by
  induction t with
  | nil => intro depth _ hne; exact absurd rfl hne
  | node k v kh nh l r ihl ihr =>
    intro depth hdep _
    cases l with
    | nil =>
      refine ⟨kh, ?_⟩
      unfold trunkHeightAux heightProofOps
      have hlt : depth / 2 < depth := by omega
      rw [if_pos hlt]
      simp
    | node lk lv lkh lnh ll lr =>
      obtain ⟨kh2, hmem⟩ :=
        ihl (depth + 1) (by omega) (by intro h; cases h)
      refine ⟨kh2, ?_⟩
      unfold trunkHeightAux heightProofOps
      exact List.mem_append_left _ hmem

/-- Claim C8: for any non-empty tree, when the trunk height determined by
the height proof is below `MIN_TRUNK_HEIGHT = 5`, `create_trunk_proof`
emits the entire tree — the stream is exactly the full emission, its
pushes are all `KV` pushes and they enumerate every node in order — with
has-more flag `false`; otherwise the flag is `true` and the stream is
abridged (it contains a non-`KV` push from the height proof). -/
theorem create_trunk_proof_spec (k v kh nh : Seg) (l r : MTree)
    (hh : (MTree.node k v kh nh l r).height ≤ usizeMax) :
    (trunkHeightAux (MTree.node k v kh nh l r) 1 < minTrunkHeight →
      (createTrunkProof (MTree.node k v kh nh l r)).2 = false ∧
        (createTrunkProof (MTree.node k v kh nh l r)).1 =
          fullOps (MTree.node k v kh nh l r) ∧
        opsKVs (createTrunkProof (MTree.node k v kh nh l r)).1 =
          inorderKV (MTree.node k v kh nh l r) ∧
        allPushKV (createTrunkProof (MTree.node k v kh nh l r)).1 = true) ∧
      (minTrunkHeight ≤ trunkHeightAux (MTree.node k v kh nh l r) 1 →
        (createTrunkProof (MTree.node k v kh nh l r)).2 = true ∧
          allPushKV (createTrunkProof (MTree.node k v kh nh l r)).1 = false) := by
  constructor
  · intro hlt
    have hfull : (createTrunkProof (MTree.node k v kh nh l r)).1 =
        fullOps (MTree.node k v kh nh l r) := by
      unfold createTrunkProof
      rw [if_pos hlt]
      exact trunkOps_full _ usizeMax true hh
    refine ⟨?_, hfull, ?_, ?_⟩
    · unfold createTrunkProof
      rw [if_pos hlt]
    · rw [hfull]
      exact opsKVs_fullOps _
    · rw [hfull]
      exact allPushKV_fullOps _
  · intro hge
    have hnlt : ¬ trunkHeightAux (MTree.node k v kh nh l r) 1 < minTrunkHeight := by
      omega
    constructor
    · unfold createTrunkProof
      rw [if_neg hnlt]
    · obtain ⟨kh2, hmem⟩ :=
        heightProofOps_has_kvhash (MTree.node k v kh nh l r) 1 (by omega)
          (by intro h; cases h)
      unfold createTrunkProof
      rw [if_neg hnlt]
      show allPushKV (heightProofOps _ _ 1 ++ trunkOps _ _ true) = false
      unfold allPushKV
      rw [List.all_append]
      have hfalse : (heightProofOps (trunkHeightAux (MTree.node k v kh nh l r) 1)
          (MTree.node k v kh nh l r) 1).all
          (fun op =>
            match op with
            | .push (.Hash _) => false
            | .push (.KVHash _) => false
            | _ => true) = false := by
        rw [List.all_eq_false]
        exact ⟨_, hmem, by simp⟩
      rw [hfalse]
      rfl

/-- Witness for C8 at a concrete one-node tree (trunk height 0 < 5: the
whole tree is a single chunk, flag `false`). -/
theorem create_trunk_proof_spec_witness :
    (MTree.node [1] [2] [3] [4] .nil .nil).height ≤ usizeMax ∧
      trunkHeightAux (MTree.node [1] [2] [3] [4] .nil .nil) 1 < minTrunkHeight ∧
      (createTrunkProof (MTree.node [1] [2] [3] [4] .nil .nil)).2 = false ∧
      (createTrunkProof (MTree.node [1] [2] [3] [4] .nil .nil)).1 =
        fullOps (MTree.node [1] [2] [3] [4] .nil .nil) := by
  have hh : (MTree.node [1] [2] [3] [4] .nil .nil).height ≤ usizeMax := by
    decide
  have h := (create_trunk_proof_spec [1] [2] [3] [4] .nil .nil hh).1 (by decide)
  exact ⟨hh, by decide, h.1, h.2.1⟩

/-!
Batch engine (`batch/apply.rs`).  The store of this later version is
DB-backed: subtrees are addressed by path (the storage layer's prefixes
are collision-free hashes there), the root-leaves map lives in the meta
column.  Operations are kept sorted in an RBTree keyed by
`(PathWrapper(path), key, op)` — path length first, then path, key and
operation; the tree is modelled as a sorted list with the cursor logic of
`insert_unique_op` translated literally.  `GroveDbOp`, `Op` and their
orderings live in the batch module root which is not among the sources:
the struct layout is reconstructed from use sites, and the operation tag
order is modelled from the spec ("… then op tag"), deletes before
inserts, which realizes the skip rule of `insert_unique_op` ("there is an
insertion operation for that path/key which substitutes deletion"). -/

/-- Modelled from the spec: the batch operation payload (`Op` of the batch
module root, reconstructed from use sites): insert an element or delete. -/
inductive BOp where
  | Insert (element : Element)
  | Delete
  deriving DecidableEq, Repr

/-- Modelled from the spec: `GroveDbOp` — path, key and operation (the
intrusive `link` bookkeeping field is dropped; equality compares path, key
and operation, as the use sites require). -/
structure GOp where
  path : Path
  key : Seg
  op : BOp
  deriving DecidableEq, Repr

/-- Modelled from the spec: the operation tag order — deletes sort before
inserts; two inserts compare equal on the tag (the element itself has no
order). -/
def tagRank : BOp → Nat
  | .Delete => 0
  | .Insert _ => 1

/-- The location part of the RBTree key: `(PathWrapper(path), key)` — path
length first (`PathWrapper` puts shallow subtrees first), then the path
lexicographically, then the key. -/
def locKey (o : GOp) : Lex (Nat × Lex (Path × Seg)) :=
  toLex (o.path.length, toLex (o.path, o.key))

/-- The full RBTree key order on operations: location, then op tag. -/
def ltOp (a b : GOp) : Prop :=
  locKey a < locKey b ∨ (locKey a = locKey b ∧ tagRank a.op < tagRank b.op)

instance (a b : GOp) : Decidable (ltOp a b) := by
  unfold ltOp
  infer_instance

/-- Insert recognizer. -/
def isInsertB : BOp → Bool
  | .Insert _ => true
  | .Delete => false

/-- `insert_unique_op`: seek the lower bound of the new operation's key;
skip it when the found operation is identical, or when it is an insertion
at the same path and key (insertion substitutes deletion); insert before
the lower bound otherwise. -/
def insertUniqueOp (z : List GOp) (o : GOp) : List GOp :=
  match z with
  | [] => [o]
  | x :: t =>
    if ltOp x o then x :: insertUniqueOp t o
    else if x = o then x :: t
    else if x.path = o.path ∧ x.key = o.key ∧ isInsertB x.op = true then x :: t
    else o :: x :: t

/-- The RBTree cursor's plain `insert` used for synthetic propagation
operations: insert at the sorted position (before the lower bound). -/
def sortedInsertOp (z : List GOp) (o : GOp) : List GOp :=
  match z with
  | [] => [o]
  | x :: t => if ltOp x o then x :: sortedInsertOp t o else o :: x :: t

/-- Collecting batch operations into the sorted RBTree
(`for op in ops { insert_unique_op(...) }`). -/
def buildSorted (ops : List GOp) : List GOp :=
  ops.foldl insertUniqueOp []

/-- The DB-backed store of the batch engine: subtree contents per path and
the persisted root-leaves map. -/
structure BStore where
  subtrees : List (Path × Merk)
  rootLeaves : List (Seg × Nat)
  deriving DecidableEq, Repr

/-- Modelled from the spec: the raw read of the DB-backed version
(`get_raw` of this version is not among the sources).  On the empty path
the root-leaves map answers — root leaves are `Tree` entries of the root
tree per the spec; a missing key is `PathKeyNotFound`.  On a deeper path
the subtree is opened (an absent subtree opens empty) and the element
read. -/
def batchGetRaw (s : BStore) (path : Path) (key : Seg) : Except Err Element :=
  if path = [] then
    match assocGet s.rootLeaves key with
    | some _ => .ok (.Tree (List.replicate 32 0) none)
    | none => .error .PathKeyNotFound
  else
    elementGet ((assocGet s.subtrees path).getD []) key

/-- `GroveDb::get` against the batch store: raw read, following
references with the hop budget. -/
def batchGet (s : BStore) (path : Path) (key : Seg) : Except Err Element :=
  match batchGetRaw s path key with
  | .ok (.Reference p _) => followRefGen (batchGetRaw s) maxReferenceHops [] p
  | r => r

/-- Modelled from the spec: the breadth-first subtree enumeration of
`find_subtrees` (its definition is not among the sources; its output
shape is fixed by `test_find_subtrees`): pop a path, record it, and queue
`path ++ [key]` for every `Tree` element of the subtree at that path.
Fuel bounds the walk; `storeFuel` below always suffices. -/
def findSubtreesAux (s : BStore) : Nat → List Path → List Path → List Path
  | 0, _, acc => acc.reverse
  | _ + 1, [], acc => acc.reverse
  | fuel + 1, p :: queue, acc =>
    findSubtreesAux s fuel
      (queue ++ ((assocGet s.subtrees p).getD []).filterMap fun kv =>
        match kv.2 with
        | .Tree _ _ => some (p ++ [kv.1])
        | _ => none)
      (p :: acc)

/-- Fuel bound for the subtree walk: one step per starting path plus one
per element stored anywhere. -/
def storeFuel (s : BStore) : Nat :=
  1 + (s.subtrees.map fun kv => kv.2.length).sum

/-- Modelled from the spec: `find_subtrees` from one starting path. -/
def findSubtrees (s : BStore) (start : Path) : List Path :=
  findSubtreesAux s (storeFuel s) [start] []

/-- Set-removal on path lists (`HashSet::remove`). -/
def setRemove (l : List Path) (x : Path) : List Path :=
  l.filter fun p => decide (p ≠ x)

/-- The validation walk of `validate_batch` over the sorted operations:
reject an insert into a removed subtree; for a subtree not yet known
valid, check the root-leaves map (empty path — dead code, since the empty
path is pre-inserted into the valid set) or that the parent entry is a
`Tree`; track subtrees made valid by `Tree` inserts and removed by
deletes. -/
def validateLoop (s : BStore) (rootLeaves : List (Seg × Nat)) :
    List GOp → List Path → List Path → Except Err Unit
  | [], _, _ => .ok ()
  | op :: rest, valid, removed =>
    if isInsertB op.op = true ∧ op.path ∈ removed then .error .InvalidPath
    else
      match
        (if op.path ∈ valid then .ok ()
         else if op.path = [] then
           if (assocGet rootLeaves op.key).isNone then .error .PathNotFound
           else if op.op = .Delete then .error .InvalidPath
           else .ok ()
         else
           match splitLastP op.path with
           | none => .error .InternalError
           | some (pslice, pkey) =>
             match batchGet s pslice pkey with
             | .error e => .error e
             | .ok el => if isTreeE el = true then .ok () else .error .InvalidPath :
          Except Err Unit) with
      | .error e => .error e
      | .ok () =>
        match op.op with
        | .Insert (.Tree _ _) =>
          validateLoop s rootLeaves rest ((op.path ++ [op.key]) :: valid)
            (setRemove removed (op.path ++ [op.key]))
        | .Delete =>
          validateLoop s rootLeaves rest (setRemove valid (op.path ++ [op.key]))
            ((op.path ++ [op.key]) :: removed)
        | _ => validateLoop s rootLeaves rest valid removed

/-- `validate_batch`: first expand recursive deletions — for every
operation, every subtree under `path ++ [key]` yields a delete operation
merged into the sorted tree, and is cached as removed — then run the
validation walk with the root path pre-marked valid. -/
def validateBatch (s : BStore) (ops : List GOp) (rootLeaves : List (Seg × Nat)) :
    Except Err (List GOp) :=
  match
    validateLoop s rootLeaves
      (((ops.map fun op => findSubtrees s (op.path ++ [op.key])).flatten.map fun p =>
          match splitLastP p with
          | some (slice, key) => GOp.mk slice key .Delete
          | none => GOp.mk [] [] .Delete).foldl
        insertUniqueOp ops)
      [[]]
      (ops.map fun op => findSubtrees s (op.path ++ [op.key])).flatten with
  | .error e => .error e
  | .ok () =>
    .ok
      (((ops.map fun op => findSubtrees s (op.path ++ [op.key])).flatten.map fun p =>
          match splitLastP p with
          | some (slice, key) => GOp.mk slice key .Delete
          | none => GOp.mk [] [] .Delete).foldl
        insertUniqueOp ops)

/-- One buffered storage write of the multi-context `StorageBatch`
(`batch.rs`): a prefixed put or delete of a serialized element in a
subtree's key-space (`sub.clear()` is a run of deletes of the cleared
subtree's keys). -/
inductive BWrite where
  | putKV (p : Path) (k : Seg) (e : Element)
  | delKV (p : Path) (k : Seg)
  deriving DecidableEq, Repr

/-- The loop of `apply_body`, fuel-bounded.  Each iteration first runs
propagation for the previously executed operation's path (the removal
cursor always sits past the end, so propagation runs on every iteration
but the first): the open Merk for that path is taken out of the cache,
its root hash is wrapped into a synthetic `Insert(parent, last_segment,
Tree(hash))` merged into the sorted operations.  Then the greatest
remaining operation is removed and executed: an empty path alters the
root-leaves map (insert-if-absent, whatever the operation); otherwise the
Merk is opened through the batched storage context (reads see the
committed store), an existing `Tree` at the key causes the child subtree
to be cleared into the batch, and the insert or delete is applied to the
cached Merk and buffered in the batch. -/
def bodyLoop (mh : Merk → Seg) (s : BStore) :
    Nat → List GOp → List (Path × Merk) → List (Seg × Nat) → List BWrite →
      Path → Bool → Except Err (List BWrite × List (Seg × Nat))
  | 0, _, _, _, _, _, _ => .error .InternalError
  | fuel + 1, ops, temp, rl, batch, prevPath, first =>
    match
      (if first then .ok (ops, temp)
       else
         match splitLastP prevPath with
         | none => .ok (ops, temp)
         | some (slice, key) =>
           match assocGet temp prevPath with
           | none => .error .InternalError
           | some m =>
             .ok (sortedInsertOp ops (GOp.mk slice key (.Insert (.Tree (mh m) none))),
               assocErase temp prevPath) :
        Except Err (List GOp × List (Path × Merk))) with
    | .error e => .error e
    | .ok (ops1, temp0) =>
      match splitLastP ops1 with
      | none => .ok (batch, rl)
      | some (rest, op) =>
        if op.path = [] then
          bodyLoop mh s fuel rest temp0
            (if (assocGet rl op.key).isNone then rl ++ [(op.key, rl.length)] else rl)
            batch op.path false
        else
          match
            (match
              elementGet
                ((assocGet
                    (if (assocGet temp0 op.path).isNone then
                      assocPut temp0 op.path ((assocGet s.subtrees op.path).getD [])
                    else temp0)
                    op.path).getD [])
                op.key with
             | .ok (.Tree _ _) =>
               .ok
                 (assocErase
                   (if (assocGet temp0 op.path).isNone then
                     assocPut temp0 op.path ((assocGet s.subtrees op.path).getD [])
                   else temp0)
                   (op.path ++ [op.key]),
                  batch ++
                    ((match
                        assocGet
                          (if (assocGet temp0 op.path).isNone then
                            assocPut temp0 op.path ((assocGet s.subtrees op.path).getD [])
                          else temp0)
                          (op.path ++ [op.key]) with
                      | some c => c
                      | none => (assocGet s.subtrees (op.path ++ [op.key])).getD [] : Merk)).map
                      fun kv => BWrite.delKV (op.path ++ [op.key]) kv.1)
             | .error .PathKeyNotFound =>
               .ok
                 ((if (assocGet temp0 op.path).isNone then
                    assocPut temp0 op.path ((assocGet s.subtrees op.path).getD [])
                  else temp0), batch)
             | .error .PathNotFound =>
               .ok
                 ((if (assocGet temp0 op.path).isNone then
                    assocPut temp0 op.path ((assocGet s.subtrees op.path).getD [])
                  else temp0), batch)
             | .error e => .error e
             | .ok _ =>
               .ok
                 ((if (assocGet temp0 op.path).isNone then
                    assocPut temp0 op.path ((assocGet s.subtrees op.path).getD [])
                  else temp0), batch) :
              Except Err (List (Path × Merk) × List BWrite)) with
          | .error e => .error e
          | .ok (temp2, batch2) =>
            match op.op with
            | .Insert el =>
              bodyLoop mh s fuel rest
                (assocPut temp2 op.path
                  (assocPut
                    ((assocGet
                        (if (assocGet temp0 op.path).isNone then
                          assocPut temp0 op.path ((assocGet s.subtrees op.path).getD [])
                        else temp0)
                        op.path).getD [])
                    op.key el))
                rl (batch2 ++ [.putKV op.path op.key el]) op.path false
            | .Delete =>
              if (assocGet
                    ((assocGet
                        (if (assocGet temp0 op.path).isNone then
                          assocPut temp0 op.path ((assocGet s.subtrees op.path).getD [])
                        else temp0)
                        op.path).getD [])
                    op.key).isNone then
                .error .CorruptedData
              else
                bodyLoop mh s fuel rest
                  (assocPut temp2 op.path
                    (assocErase
                      ((assocGet
                          (if (assocGet temp0 op.path).isNone then
                            assocPut temp0 op.path ((assocGet s.subtrees op.path).getD [])
                          else temp0)
                          op.path).getD [])
                      op.key))
                  rl (batch2 ++ [.delKV op.path op.key]) op.path false

/-- Fuel for the loop: one step per operation plus one per ancestor a
propagation chain can emit. -/
def bodyFuel (ops : List GOp) : Nat :=
  (ops.map fun op => op.path.length + 2).sum + 2

/-- `apply_body` over validated sorted operations. -/
def applyBody (mh : Merk → Seg) (s : BStore) (ops : List GOp)
    (rl : List (Seg × Nat)) : Except Err (List BWrite × List (Seg × Nat)) :=
  match ops.getLast? with
  | none => .error .InternalError
  | some back => bodyLoop mh s (bodyFuel ops) ops [] rl [] back.path true

/-- Replaying the buffered writes of the storage batch, in order, onto
the committed subtree contents. -/
def commitWrites (subs : List (Path × Merk)) : List BWrite → List (Path × Merk)
  | [] => subs
  | .putKV p k e :: rest =>
    commitWrites (assocPut subs p (assocPut ((assocGet subs p).getD []) k e)) rest
  | .delKV p k :: rest =>
    commitWrites (assocPut subs p (assocErase ((assocGet subs p).getD []) k)) rest

/-- `commit_multi_context_batch` plus the root-leaves meta save: the one
atomic application of all buffered writes. -/
def commitMultiContextBatch (s : BStore) (batch : List BWrite)
    (rl : List (Seg × Nat)) : BStore :=
  BStore.mk (commitWrites s.subtrees batch) rl

/-- `GroveDb::apply_batch`: empty batches succeed immediately; otherwise
collect the operations into the sorted tree, validate (with deletion
expansion), execute the body into one storage batch, and commit that
batch; any error returns before the commit.  The first component is the
error, the second the store the caller observes afterwards. -/
def applyBatchRaw (mh : Merk → Seg) (s : BStore) (ops : List GOp) :
    Option Err × BStore :=
  if ops = [] then (none, s)
  else
    match validateBatch s (buildSorted ops) s.rootLeaves with
    | .error e => (some e, s)
    | .ok validated =>
      match applyBody mh s validated s.rootLeaves with
      | .error e => (some e, s)
      | .ok (batch, rl) => (none, commitMultiContextBatch s batch rl)

/-- Modelled from the spec: the store's root hash — the root Merkle tree
over the ordered root-leaf subtree hashes.  Hashes are idealized as
perfect commitments, so the commitment is the ordered list of root-leaf
subtree contents; two stores get the same root hash exactly when these
agree. -/
def rootCommitModel (s : BStore) : List (Option Merk) :=
  (List.range s.rootLeaves.length).map fun i =>
    (s.rootLeaves.find? fun kv => kv.2 = i).map fun kv =>
      (assocGet s.subtrees [kv.1]).getD []

/-- Claim C2: `apply_batch` is atomic — whenever it returns an error the
observable store (every subtree's contents, the root-leaves map, and with
them the root hash) is exactly the store before the call; on success the
resulting store is the commit of one multi-context storage batch together
with the saved root-leaves map, so all writes become visible together. -/
theorem apply_batch_atomic (mh : Merk → Seg) (s : BStore) (ops : List GOp) :
    ((applyBatchRaw mh s ops).1.isSome = true → (applyBatchRaw mh s ops).2 = s) ∧
      ((applyBatchRaw mh s ops).1 = none →
        ∃ b rl, (applyBatchRaw mh s ops).2 = commitMultiContextBatch s b rl) := by
  unfold applyBatchRaw
  by_cases he : ops = []
  · rw [if_pos he]
    constructor
    · intro h
      simp at h
    · intro _
      exact ⟨[], s.rootLeaves, rfl⟩
  · rw [if_neg he]
    cases hv : validateBatch s (buildSorted ops) s.rootLeaves with
    | error e =>
      constructor
      · intro _
        rfl
      · intro h
        cases h
    | ok validated =>
      cases hb : applyBody mh s validated s.rootLeaves with
      | error e =>
        constructor
        · intro _
          simp only [hb]
        · intro h
          simp only [hb] at h
          cases h
      | ok pr =>
        obtain ⟨b, rl⟩ := pr
        constructor
        · intro h
          simp only [hb] at h
          simp at h
        · intro _
          exact ⟨b, rl, by simp only [hb]⟩

/-- Witness for C2: a batch inserting under a missing root leaf fails and
the returned store is the one before the call. -/
theorem apply_batch_atomic_witness :
    (applyBatchRaw mhZero (BStore.mk [] [])
        [GOp.mk [[66]] [1] (.Insert (.Item [2] none))]).1.isSome = true ∧
      (applyBatchRaw mhZero (BStore.mk [] [])
          [GOp.mk [[66]] [1] (.Insert (.Item [2] none))]).2 = BStore.mk [] [] :=
  ⟨by decide,
    (apply_batch_atomic mhZero (BStore.mk [] [])
      [GOp.mk [[66]] [1] (.Insert (.Item [2] none))]).1 (by decide)⟩

/-- Claim C6 (evaluation at the failing input): a batch consisting of one
`Delete` at the empty path is not rejected — `validate_batch` pre-inserts
the empty path into `valid_subtrees`, so its root-leaf checks (including
the `InvalidPath` rejection of root-leaf deletions) are unreachable — and
`apply_body` treats the empty-path operation as a root-leaf insertion,
altering the root-leaves map: on an empty store the batch succeeds and
adds the key as a new root leaf. -/
theorem apply_batch_root_delete_not_rejected :
    applyBatchRaw mhZero (BStore.mk [] []) [GOp.mk [] [65] .Delete] =
      (none, BStore.mk [] [([65], 0)]) ∧
      (BStore.mk ([] : List (Path × Merk)) [([65], 0)]).rootLeaves ≠
        (BStore.mk ([] : List (Path × Merk)) []).rootLeaves := by
  decide

theorem locKey_eq_iff (a b : GOp) :
    locKey a = locKey b ↔ a.path = b.path ∧ a.key = b.key := by
  unfold locKey
  constructor
  · intro h
    simp only [toLex_inj, Prod.mk.injEq] at h
    exact ⟨h.2.1, h.2.2⟩
  · intro h
    rw [h.1, h.2]

theorem ltOp_irrefl (a : GOp) : ¬ ltOp a a := by
  unfold ltOp
  simp

theorem ltOp_trans {a b c : GOp} (h1 : ltOp a b) (h2 : ltOp b c) : ltOp a c := by
  rcases h1 with h1 | ⟨e1, t1⟩ <;> rcases h2 with h2 | ⟨e2, t2⟩
  · exact Or.inl (lt_trans h1 h2)
  · exact Or.inl (e2 ▸ h1)
  · exact Or.inl (e1 ▸ h2)
  · exact Or.inr ⟨e1.trans e2, Nat.lt_trans t1 t2⟩

theorem ltOp_asymm {a b : GOp} (h : ltOp a b) : ¬ ltOp b a :=
  fun h2 => ltOp_irrefl a (ltOp_trans h h2)

theorem ltOp_total_of_ne_loc {a b : GOp}
    (h : ¬(a.path = b.path ∧ a.key = b.key)) : ltOp a b ∨ ltOp b a := by
  rcases lt_trichotomy (locKey a) (locKey b) with hlt | heq | hgt
  · exact Or.inl (Or.inl hlt)
  · exact absurd ((locKey_eq_iff a b).mp heq) h
  · exact Or.inr (Or.inl hgt)

theorem locKey_lt_of_ltOp_ne {a b : GOp} (h : ltOp a b)
    (hne : ¬(a.path = b.path ∧ a.key = b.key)) : locKey a < locKey b := by
  rcases h with h | ⟨he, _⟩
  · exact h
  · exact absurd ((locKey_eq_iff a b).mp he) hne

theorem iu_lt {a o : GOp} (h : ltOp a o) (t : List GOp) :
    insertUniqueOp (a :: t) o = a :: insertUniqueOp t o := by
  simp only [insertUniqueOp, if_pos h]

theorem iu_self {a : GOp} (t : List GOp) :
    insertUniqueOp (a :: t) a = a :: t := by
  simp only [insertUniqueOp, if_neg (ltOp_irrefl a)]
  simp

theorem iu_skip {a o : GOp} (hlt : ¬ ltOp a o) (hne : a ≠ o)
    (hsl : a.path = o.path ∧ a.key = o.key ∧ isInsertB a.op = true)
    (t : List GOp) : insertUniqueOp (a :: t) o = a :: t := by
  simp only [insertUniqueOp, if_neg hlt, if_neg hne, if_pos hsl]

theorem iu_before {a o : GOp} (hlt : ¬ ltOp a o) (hne : a ≠ o)
    (hsl : ¬(a.path = o.path ∧ a.key = o.key ∧ isInsertB a.op = true))
    (t : List GOp) : insertUniqueOp (a :: t) o = o :: a :: t := by
  simp only [insertUniqueOp, if_neg hlt, if_neg hne, if_neg hsl]

theorem insertUniqueOp_comm_lt (x y : GOp)
    (hloc : ¬(x.path = y.path ∧ x.key = y.key)) (hlt : ltOp x y) :
    ∀ z, insertUniqueOp (insertUniqueOp z x) y =
      insertUniqueOp (insertUniqueOp z y) x := by
  have hxy : x ≠ y := fun he => hloc (by rw [he]; exact ⟨rfl, rfl⟩)
  have hyx : ¬ ltOp y x := ltOp_asymm hlt
  have hslyx : ¬(y.path = x.path ∧ y.key = x.key ∧ isInsertB y.op = true) :=
    fun ⟨h1, h2, _⟩ => hloc ⟨h1.symm, h2.symm⟩
  intro z
  induction z with
  | nil =>
    show insertUniqueOp [x] y = insertUniqueOp [y] x
    rw [iu_lt hlt, iu_before hyx (Ne.symm hxy) hslyx]
    rfl
  | cons a t ih =>
    by_cases hax : ltOp a x
    · have hay : ltOp a y := ltOp_trans hax hlt
      rw [iu_lt hax, iu_lt hay, iu_lt hay, iu_lt hax, ih]
    · by_cases haex : a = x
      · subst haex
        rw [iu_self t, iu_lt hlt, iu_self (insertUniqueOp t y)]
      · by_cases hslax : a.path = x.path ∧ a.key = x.key ∧ isInsertB a.op = true
        · have hay : ltOp a y := by
            have h1 : locKey a = locKey x := (locKey_eq_iff a x).mpr ⟨hslax.1, hslax.2.1⟩
            have h2 : locKey x < locKey y := locKey_lt_of_ltOp_ne hlt hloc
            exact Or.inl (h1 ▸ h2)
          rw [iu_skip hax haex hslax, iu_lt hay, iu_skip hax haex hslax]
        · rw [iu_before hax haex hslax, iu_lt hlt]
          by_cases hay : ltOp a y
          · rw [iu_lt hay, iu_before hax haex hslax]
          · by_cases haey : a = y
            · subst haey
              rw [iu_self t, iu_before hax haex hslax]
            · by_cases hslay : a.path = y.path ∧ a.key = y.key ∧ isInsertB a.op = true
              · rw [iu_skip hay haey hslay, iu_before hax haex hslax]
              · rw [iu_before hay haey hslay, iu_before hyx (Ne.symm hxy) hslyx]

theorem insertUniqueOp_comm (x y : GOp)
    (hloc : ¬(x.path = y.path ∧ x.key = y.key)) (z : List GOp) :
    insertUniqueOp (insertUniqueOp z x) y =
      insertUniqueOp (insertUniqueOp z y) x := by
  rcases ltOp_total_of_ne_loc hloc with h | h
  · exact insertUniqueOp_comm_lt x y hloc h z
  · exact (insertUniqueOp_comm_lt y x
      (fun ⟨h1, h2⟩ => hloc ⟨h1.symm, h2.symm⟩) h z).symm

theorem buildSorted_perm (l1 l2 : List GOp) (hp : l1.Perm l2)
    (hd : l1.Pairwise fun a b => ¬(a.path = b.path ∧ a.key = b.key)) :
    buildSorted l1 = buildSorted l2 := by
  unfold buildSorted
  refine hp.foldl_eq' ?_ []
  intro x hx y hy z
  by_cases hxy : x = y
  · subst hxy
    rfl
  · have hsymm : Symmetric (fun a b : GOp => ¬(a.path = b.path ∧ a.key = b.key)) :=
      fun a b h ⟨h1, h2⟩ => h ⟨h1.symm, h2.symm⟩
    exact insertUniqueOp_comm x y (hd.forall hsymm hx hy hxy) z

/-- Claim C3 (amended): for two `apply_batch` input vectors that are
permutations of one another and in which no two operations target the
same `(path, key)` location, applied to the same starting store, the two
calls return identical results — they succeed or fail identically and a
successful application leaves the identical store, hence the identical
root hash.  (When two operations do share a location, the input order
matters: of two different inserts at one location only the first survives
`insert_unique_op`, see the counterexample.) -/
theorem apply_batch_permutation (mh : Merk → Seg) (s : BStore)
    (l1 l2 : List GOp) (hp : l1.Perm l2)
    (hd : l1.Pairwise fun a b => ¬(a.path = b.path ∧ a.key = b.key)) :
    applyBatchRaw mh s l1 = applyBatchRaw mh s l2 := by
  unfold applyBatchRaw
  by_cases h1 : l1 = []
  · have h2 : l2 = [] := by
      subst h1
      exact hp.symm.eq_nil
    rw [h1, h2]
  · have h2 : l2 ≠ [] := fun he => h1 (by
      subst he
      exact hp.eq_nil)
    rw [if_neg h1, if_neg h2, buildSorted_perm l1 l2 hp hd]

/-- Witness for the amended C3 at two concrete permuted batches over
distinct locations. -/
theorem apply_batch_permutation_witness :
    [GOp.mk [[65]] [1] (.Insert (.Item [7] none)),
        GOp.mk [[65]] [2] (.Insert (.Item [8] none))].Perm
      [GOp.mk [[65]] [2] (.Insert (.Item [8] none)),
        GOp.mk [[65]] [1] (.Insert (.Item [7] none))] ∧
      applyBatchRaw mhZero (BStore.mk [([[65]], [])] [([65], 0)])
          [GOp.mk [[65]] [1] (.Insert (.Item [7] none)),
            GOp.mk [[65]] [2] (.Insert (.Item [8] none))] =
        applyBatchRaw mhZero (BStore.mk [([[65]], [])] [([65], 0)])
          [GOp.mk [[65]] [2] (.Insert (.Item [8] none)),
            GOp.mk [[65]] [1] (.Insert (.Item [7] none))] :=
  ⟨by decide,
    apply_batch_permutation mhZero (BStore.mk [([[65]], [])] [([65], 0)]) _ _
      (by decide) (by decide)⟩

/-- Counterexample for C3 as stated: two batches that are permutations of
one another — two different inserts at the same `(path, key)` — both
succeed, but they leave different stores and different root hashes: the
`insert_unique_op` deduplication keeps whichever insert arrives first. -/
theorem apply_batch_permutation_counterexample :
    [GOp.mk [[65]] [107] (.Insert (.Item [1] none)),
        GOp.mk [[65]] [107] (.Insert (.Item [2] none))].Perm
      [GOp.mk [[65]] [107] (.Insert (.Item [2] none)),
        GOp.mk [[65]] [107] (.Insert (.Item [1] none))] ∧
      (applyBatchRaw mhZero (BStore.mk [([[65]], [])] [([65], 0)])
          [GOp.mk [[65]] [107] (.Insert (.Item [1] none)),
            GOp.mk [[65]] [107] (.Insert (.Item [2] none))]).1 = none ∧
      (applyBatchRaw mhZero (BStore.mk [([[65]], [])] [([65], 0)])
          [GOp.mk [[65]] [107] (.Insert (.Item [2] none)),
            GOp.mk [[65]] [107] (.Insert (.Item [1] none))]).1 = none ∧
      rootCommitModel
          (applyBatchRaw mhZero (BStore.mk [([[65]], [])] [([65], 0)])
            [GOp.mk [[65]] [107] (.Insert (.Item [1] none)),
              GOp.mk [[65]] [107] (.Insert (.Item [2] none))]).2 ≠
        rootCommitModel
          (applyBatchRaw mhZero (BStore.mk [([[65]], [])] [([65], 0)])
            [GOp.mk [[65]] [107] (.Insert (.Item [2] none)),
              GOp.mk [[65]] [107] (.Insert (.Item [1] none))]).2 := by
  decide

end GroveSpec
